import Mathlib

/-!
Shallow embedding of the spmc-logger quorum log (src/lib.rs).

Payload bytes (`Vec<u8>`) are modelled as `List Nat`.  The per-logger hmac
key together with `hmac::sign` is abstracted into a deterministic function
`mac : Bytes → Bytes` fixed for the logger's lifetime; `hmac::verify` is tag
comparison, i.e. `mac bytes = storedTag` (which is exactly what the ring
primitive checks).  Thread ids are modelled as `Nat`.  The cursor registry
`RwLock<HashMap<ThreadId, usize>>` is modelled as an association list with
distinct keys; the per-message atomic counter is a plain `Nat` since the
embedding is of the sequential (lock-serialised) behaviour of each call.
-/

abbrev Bytes := List Nat

/-- `Message` (src/lib.rs lines 8-13): payload bytes, hmac tag, read counter. -/
structure Message where
  bytes : Bytes
  hash : Bytes
  readers : Nat
deriving DecidableEq

/-- `Response` (src/lib.rs lines 50-54). -/
structure Response where
  message : Bytes
  hash : Bytes
  is_valid : Bool
deriving DecidableEq

instance {e a : Type} [DecidableEq e] [DecidableEq a] : DecidableEq (Except e a) :=
  fun x y =>
    match x, y with
    | Except.ok u, Except.ok v =>
      if h : u = v then isTrue (by rw [h]) else isFalse (fun hc => h (Except.ok.inj hc))
    | Except.error u, Except.error v =>
      if h : u = v then isTrue (by rw [h]) else isFalse (fun hc => h (Except.error.inj hc))
    | Except.ok _, Except.error _ => isFalse (fun hc => Except.noConfusion hc)
    | Except.error _, Except.ok _ => isFalse (fun hc => Except.noConfusion hc)

/-- `Logger` (src/lib.rs lines 24-30); the signing key is abstracted into the
`mac` argument of the operations. -/
structure Logger where
  num_readers : Nat
  readers : List (Nat × Nat)
  messages : List Message
  size : Nat
deriving DecidableEq

/-- `Logger::new` (src/lib.rs lines 33-47): empty buffer, empty registry. -/
def Logger.new (num_readers size : Nat) : Logger :=
  { num_readers := num_readers, readers := [], messages := [], size := size }

/-- `HashMap::get` on the association-list model of the cursor registry. -/
def mapGet (m : List (Nat × Nat)) (k : Nat) : Option Nat :=
  match m with
  | [] => none
  | (k', v) :: rest => if k' = k then some v else mapGet rest k

/-- `HashMap::insert` on the association-list model: replace the entry for an
existing key, otherwise append a fresh entry. -/
def mapInsert (m : List (Nat × Nat)) (k v : Nat) : List (Nat × Nat) :=
  match m with
  | [] => [(k, v)]
  | (k', v') :: rest => if k' = k then (k, v) :: rest else (k', v') :: mapInsert rest k v

/-- Default message used with `List.getD`; the index is always in bounds when
it is used, mirroring the panic-free indexing of the source. -/
def mdefault : Message := { bytes := [], hash := [], readers := 0 }

/-- The caller's cursor: `readers.get(&thread_id)` defaulting to 0
(src/lib.rs lines 93-96). -/
def cursorOf (l : Logger) (tid : Nat) : Nat := (mapGet l.readers tid).getD 0

/-- The buffer message at an index (src/lib.rs line 107). -/
def msgAt (l : Logger) (i : Nat) : Message := l.messages.getD i mdefault

/-- `Logger::write` (src/lib.rs lines 63-79).  Error code 1 means the buffer
is full; the returned `Logger` is the post-state (unchanged on error). -/
def Logger.write (mac : Bytes → Bytes) (l : Logger) (data : Bytes) :
    Except Nat Unit × Logger :=
  if l.size ≤ l.messages.length then (Except.error 1, l)
  else (Except.ok (),
    { l with messages :=
        l.messages ++ [{ bytes := data, hash := mac data, readers := 0 }] })

/-- The end-of-buffer guard of `Logger::read` (src/lib.rs line 101):
`self.messages.is_empty() || thread_count > 0 && thread_count > self.messages.len() - 1`. -/
def atEnd (l : Logger) (tid : Nat) : Prop :=
  l.messages.length = 0 ∨
    (0 < cursorOf l tid ∧ l.messages.length - 1 < cursorOf l tid)

instance (l : Logger) (tid : Nat) : Decidable (atEnd l tid) := by
  unfold atEnd; infer_instance

/-- The value returned by a consuming read (src/lib.rs lines 107-114 and
131-135): payload and tag of the clone taken before the increment, and the
hmac verification outcome on that clone. -/
def readResponse (mac : Bytes → Bytes) (l : Logger) (tid : Nat) : Response :=
  { message := (msgAt l (cursorOf l tid)).bytes,
    hash := (msgAt l (cursorOf l tid)).hash,
    is_valid := decide (mac (msgAt l (cursorOf l tid)).bytes
      = (msgAt l (cursorOf l tid)).hash) }

/-- The message at the cursor with its counter incremented
(src/lib.rs line 116). -/
def incMsg (l : Logger) (tid : Nat) : Message :=
  { bytes := (msgAt l (cursorOf l tid)).bytes,
    hash := (msgAt l (cursorOf l tid)).hash,
    readers := (msgAt l (cursorOf l tid)).readers + 1 }

/-- Post-state of a consuming read whose post-increment count reaches the
quorum (src/lib.rs lines 121-123, 128-129): the incremented message is
removed at the cursor index and the cursor is written back unchanged. -/
def evictState (l : Logger) (tid : Nat) : Logger :=
  { l with
      messages := (l.messages.set (cursorOf l tid) (incMsg l tid)).eraseIdx
        (cursorOf l tid),
      readers := mapInsert l.readers tid (cursorOf l tid) }

/-- Post-state of a consuming read below the quorum (src/lib.rs lines
124-126, 128-129): the counter is incremented in place and the cursor is
advanced by one. -/
def advanceState (l : Logger) (tid : Nat) : Logger :=
  { l with
      messages := l.messages.set (cursorOf l tid) (incMsg l tid),
      readers := mapInsert l.readers tid (cursorOf l tid + 1) }

/-- `Logger::read` (src/lib.rs lines 82-136).  Error code 2 means there are
more registered readers than the quorum.  The four branches are, in source
order: the too-many-readers rejection (lines 86-91), the end-of-buffer
return (lines 101-104), and the consuming read (lines 106-135), which clones
the message, verifies the tag, increments the stored counter and then either
evicts the message keeping the cursor (post-increment count ≥ quorum) or
keeps the message advancing the cursor. -/
def Logger.read (mac : Bytes → Bytes) (l : Logger) (tid : Nat) :
    Except Nat (Option Response) × Logger :=
  if l.num_readers < l.readers.length then
    (Except.error 2, l)
  else if atEnd l tid then
    (Except.ok none, l)
  else if l.num_readers ≤ (msgAt l (cursorOf l tid)).readers + 1 then
    (Except.ok (some (readResponse mac l tid)), evictState l tid)
  else
    (Except.ok (some (readResponse mac l tid)), advanceState l tid)

/-- One client call against the log, for reachability statements. -/
inductive Op where
  | write (data : Bytes) : Op
  | read (tid : Nat) : Op
deriving DecidableEq

/-- State transition of a single call (the state component of `write`/`read`). -/
def step (mac : Bytes → Bytes) (l : Logger) (op : Op) : Logger :=
  match op with
  | Op.write data => (Logger.write mac l data).2
  | Op.read tid => (Logger.read mac l tid).2

/-- Run a sequence of calls from a given state. -/
def run (mac : Bytes → Bytes) (l : Logger) (ops : List Op) : Logger :=
  ops.foldl (step mac) l

/-- The state reached from a freshly constructed logger by a call sequence. -/
def reach (mac : Bytes → Bytes) (q c : Nat) (ops : List Op) : Logger :=
  run mac (Logger.new q c) ops

/-- The payloads passed to `write` calls of a sequence, in call order. -/
def opsWrites : List Op → List Bytes
  | [] => []
  | Op.write d :: rest => d :: opsWrites rest
  | Op.read _ :: rest => opsWrites rest

/-- A concrete deterministic tag function used for concrete evaluations. -/
def mac0 : Bytes → Bytes := fun b => 7 :: b

/-! ### Association-list registry lemmas -/

theorem mapGet_mapInsert_self (m : List (Nat × Nat)) (k v : Nat) :
    mapGet (mapInsert m k v) k = some v := by
  induction m with
  | nil => simp [mapInsert, mapGet]
  | cons hd tl ih =>
    obtain ⟨k', v'⟩ := hd
    by_cases h : k' = k
    · simp [mapInsert, mapGet, h]
    · simp [mapInsert, mapGet, h, ih]

theorem mapGet_mapInsert_ne (m : List (Nat × Nat)) (k v k' : Nat) (h : k' ≠ k) :
    mapGet (mapInsert m k v) k' = mapGet m k' := by
  induction m with
  | nil =>
    have hk : ¬ k = k' := fun e => h e.symm
    simp [mapInsert, mapGet, hk]
  | cons hd tl ih =>
    obtain ⟨a, b⟩ := hd
    by_cases ha : a = k
    · subst ha
      have hk : ¬ a = k' := fun e => h e.symm
      simp [mapInsert, mapGet, hk]
    · simp [mapInsert, mapGet, ha, ih]

theorem length_mapInsert_le (m : List (Nat × Nat)) (k v : Nat) :
    (mapInsert m k v).length ≤ m.length + 1 := by
  induction m with
  | nil => simp [mapInsert]
  | cons hd tl ih =>
    obtain ⟨a, b⟩ := hd
    by_cases ha : a = k
    · simp [mapInsert, ha]
    · simp only [mapInsert, if_neg ha, List.length_cons]
      omega

theorem mem_keys_mapInsert (m : List (Nat × Nat)) (k v a : Nat)
    (h : a ∈ (mapInsert m k v).map Prod.fst) :
    a = k ∨ a ∈ m.map Prod.fst := by
  induction m with
  | nil => simpa [mapInsert] using h
  | cons hd tl ih =>
    obtain ⟨x, y⟩ := hd
    by_cases hx : x = k
    · subst hx
      simpa [mapInsert] using h
    · simp only [mapInsert, if_neg hx, List.map_cons, List.mem_cons] at h
      rcases h with h | h
      · exact Or.inr (by simp [h])
      · rcases ih h with h' | h'
        · exact Or.inl h'
        · exact Or.inr (by simp [h'])

theorem nodup_keys_mapInsert (m : List (Nat × Nat)) (k v : Nat)
    (h : (m.map Prod.fst).Nodup) :
    ((mapInsert m k v).map Prod.fst).Nodup := by
  induction m with
  | nil => simp [mapInsert]
  | cons hd tl ih =>
    obtain ⟨x, y⟩ := hd
    simp only [List.map_cons, List.nodup_cons] at h
    by_cases hx : x = k
    · subst hx
      simpa [mapInsert, List.nodup_cons] using h
    · simp only [mapInsert, if_neg hx, List.map_cons, List.nodup_cons]
      refine ⟨fun hmem => ?_, ih h.2⟩
      rcases mem_keys_mapInsert tl k v x hmem with h' | h'
      · exact hx h'
      · exact h.1 h'

/-! ### List lemmas used by the transition analysis -/

theorem set_eraseIdx_self {α : Type} :
    ∀ (ms : List α) (i : Nat) (m' : α),
      (ms.set i m').eraseIdx i = ms.eraseIdx i := by
  intro ms
  induction ms with
  | nil => intro i m'; rfl
  | cons x t ih =>
    intro i m'
    cases i with
    | zero => rfl
    | succ j => simpa [List.set, List.eraseIdx] using ih j m'

theorem length_eraseIdx_le {α : Type} :
    ∀ (ms : List α) (i : Nat), (ms.eraseIdx i).length ≤ ms.length := by
  intro ms
  induction ms with
  | nil => intro i; simp [List.eraseIdx]
  | cons x t ih =>
    intro i
    cases i with
    | zero => simp [List.eraseIdx]
    | succ j =>
      simp only [List.eraseIdx, List.length_cons]
      exact Nat.succ_le_succ (ih j)

theorem mem_eraseIdx {α : Type} :
    ∀ (ms : List α) (i : Nat) (a : α), a ∈ ms.eraseIdx i → a ∈ ms := by
  intro ms
  induction ms with
  | nil => intro i a h; simp [List.eraseIdx] at h
  | cons x t ih =>
    intro i a h
    cases i with
    | zero =>
      simp only [List.eraseIdx] at h
      exact List.mem_cons_of_mem x h
    | succ j =>
      simp only [List.eraseIdx, List.mem_cons] at h
      rcases h with h | h
      · exact h ▸ List.mem_cons_self x t
      · exact List.mem_cons_of_mem x (ih j a h)

theorem mem_set_cases {α : Type} :
    ∀ (ms : List α) (i : Nat) (b a : α), a ∈ ms.set i b → a ∈ ms ∨ a = b := by
  intro ms
  induction ms with
  | nil => intro i b a h; simp [List.set] at h
  | cons x t ih =>
    intro i b a h
    cases i with
    | zero =>
      simp only [List.set, List.mem_cons] at h
      rcases h with h | h
      · exact Or.inr h
      · exact Or.inl (List.mem_cons_of_mem x h)
    | succ j =>
      simp only [List.set, List.mem_cons] at h
      rcases h with h | h
      · exact Or.inl (h ▸ List.mem_cons_self x t)
      · rcases ih j b a h with h' | h'
        · exact Or.inl (List.mem_cons_of_mem x h')
        · exact Or.inr h'

theorem getD_mem :
    ∀ (ms : List Message) (i : Nat), i < ms.length → ms.getD i mdefault ∈ ms := by
  intro ms
  induction ms with
  | nil => intro i h; simp at h
  | cons x t ih =>
    intro i h
    cases i with
    | zero => simp [List.getD]
    | succ j =>
      simp only [List.getD_cons_succ]
      exact List.mem_cons_of_mem x (ih j (by simpa using h))

theorem eraseIdx_sublist {α : Type} :
    ∀ (ms : List α) (i : Nat), (ms.eraseIdx i).Sublist ms := by
  intro ms
  induction ms with
  | nil => intro i; simp [List.eraseIdx]
  | cons x t ih =>
    intro i
    cases i with
    | zero => exact (List.Sublist.refl t).cons x
    | succ j => exact (ih j).cons₂ x

theorem map_eraseIdx {α β : Type} (f : α → β) :
    ∀ (ms : List α) (i : Nat), (ms.eraseIdx i).map f = (ms.map f).eraseIdx i := by
  intro ms
  induction ms with
  | nil => intro i; rfl
  | cons x t ih =>
    intro i
    cases i with
    | zero => rfl
    | succ j => simp [List.eraseIdx, ih j]

theorem map_bytes_set_same :
    ∀ (ms : List Message) (i : Nat) (m' : Message),
      m'.bytes = (ms.getD i mdefault).bytes →
      (ms.set i m').map Message.bytes = ms.map Message.bytes := by
  intro ms
  induction ms with
  | nil => intro i m' _; rfl
  | cons x t ih =>
    intro i m' h
    cases i with
    | zero => simpa [List.set] using h
    | succ j =>
      simp only [List.getD_cons_succ] at h
      simp [List.set, ih j m' h]

/-! ### Case analysis of the two operations -/

theorem write_full (mac : Bytes → Bytes) (l : Logger) (data : Bytes)
    (h : l.size ≤ l.messages.length) :
    Logger.write mac l data = (Except.error 1, l) := by
  unfold Logger.write
  rw [if_pos h]

theorem write_ok (mac : Bytes → Bytes) (l : Logger) (data : Bytes)
    (h : ¬ l.size ≤ l.messages.length) :
    Logger.write mac l data = (Except.ok (),
      { l with messages :=
          l.messages ++ [{ bytes := data, hash := mac data, readers := 0 }] }) := by
  unfold Logger.write
  rw [if_neg h]

theorem read_rejected (mac : Bytes → Bytes) (l : Logger) (tid : Nat)
    (h : l.num_readers < l.readers.length) :
    Logger.read mac l tid = (Except.error 2, l) := by
  unfold Logger.read
  rw [if_pos h]

theorem read_none (mac : Bytes → Bytes) (l : Logger) (tid : Nat)
    (h1 : ¬ l.num_readers < l.readers.length) (h2 : atEnd l tid) :
    Logger.read mac l tid = (Except.ok none, l) := by
  unfold Logger.read
  rw [if_neg h1, if_pos h2]

theorem read_evict (mac : Bytes → Bytes) (l : Logger) (tid : Nat)
    (h1 : ¬ l.num_readers < l.readers.length) (h2 : ¬ atEnd l tid)
    (h3 : l.num_readers ≤ (msgAt l (cursorOf l tid)).readers + 1) :
    Logger.read mac l tid = (Except.ok (some (readResponse mac l tid)), evictState l tid) := by
  unfold Logger.read
  rw [if_neg h1, if_neg h2, if_pos h3]

theorem read_advance (mac : Bytes → Bytes) (l : Logger) (tid : Nat)
    (h1 : ¬ l.num_readers < l.readers.length) (h2 : ¬ atEnd l tid)
    (h3 : ¬ l.num_readers ≤ (msgAt l (cursorOf l tid)).readers + 1) :
    Logger.read mac l tid = (Except.ok (some (readResponse mac l tid)), advanceState l tid) := by
  unfold Logger.read
  rw [if_neg h1, if_neg h2, if_neg h3]

theorem read_cases (mac : Bytes → Bytes) (l : Logger) (tid : Nat) :
    (l.num_readers < l.readers.length ∧ Logger.read mac l tid = (Except.error 2, l)) ∨
    (¬ l.num_readers < l.readers.length ∧ atEnd l tid ∧
      Logger.read mac l tid = (Except.ok none, l)) ∨
    (¬ l.num_readers < l.readers.length ∧ ¬ atEnd l tid ∧
      l.num_readers ≤ (msgAt l (cursorOf l tid)).readers + 1 ∧
      Logger.read mac l tid = (Except.ok (some (readResponse mac l tid)), evictState l tid)) ∨
    (¬ l.num_readers < l.readers.length ∧ ¬ atEnd l tid ∧
      ¬ l.num_readers ≤ (msgAt l (cursorOf l tid)).readers + 1 ∧
      Logger.read mac l tid = (Except.ok (some (readResponse mac l tid)), advanceState l tid)) := by
  by_cases h1 : l.num_readers < l.readers.length
  · exact Or.inl ⟨h1, read_rejected mac l tid h1⟩
  · by_cases h2 : atEnd l tid
    · exact Or.inr (Or.inl ⟨h1, h2, read_none mac l tid h1 h2⟩)
    · by_cases h3 : l.num_readers ≤ (msgAt l (cursorOf l tid)).readers + 1
      · exact Or.inr (Or.inr (Or.inl ⟨h1, h2, h3, read_evict mac l tid h1 h2 h3⟩))
      · exact Or.inr (Or.inr (Or.inr ⟨h1, h2, h3, read_advance mac l tid h1 h2 h3⟩))

/-- When the end-of-buffer guard fails, the cursor is a valid buffer index. -/
theorem cursor_lt_of_not_atEnd (l : Logger) (tid : Nat) (h : ¬ atEnd l tid) :
    cursorOf l tid < l.messages.length := by
  unfold atEnd at h
  omega

/-- A read whose result is `Ok(Some _)` took one of the two consuming
branches: the guards of both rejection tests failed. -/
theorem read_some_guards (mac : Bytes → Bytes) (l : Logger) (tid : Nat)
    (r : Response) (l' : Logger)
    (h : Logger.read mac l tid = (Except.ok (some r), l')) :
    ¬ l.num_readers < l.readers.length ∧ ¬ atEnd l tid ∧
      r = readResponse mac l tid ∧
      ((l.num_readers ≤ (msgAt l (cursorOf l tid)).readers + 1 ∧ l' = evictState l tid) ∨
       (¬ l.num_readers ≤ (msgAt l (cursorOf l tid)).readers + 1 ∧ l' = advanceState l tid)) := by
  rcases read_cases mac l tid with ⟨_, e⟩ | ⟨_, _, e⟩ | ⟨h1, h2, h3, e⟩ | ⟨h1, h2, h3, e⟩ <;>
    rw [e] at h
  · simp at h
  · simp at h
  · simp only [Prod.mk.injEq, Except.ok.injEq, Option.some.injEq] at h
    exact ⟨h1, h2, h.1.symm, Or.inl ⟨h3, h.2.symm⟩⟩
  · simp only [Prod.mk.injEq, Except.ok.injEq, Option.some.injEq] at h
    exact ⟨h1, h2, h.1.symm, Or.inr ⟨h3, h.2.symm⟩⟩

/-! ### Fields preserved by every transition -/

theorem step_num_readers (mac : Bytes → Bytes) (l : Logger) (op : Op) :
    (step mac l op).num_readers = l.num_readers := by
  cases op with
  | write data =>
    show (Logger.write mac l data).2.num_readers = l.num_readers
    unfold Logger.write
    split_ifs <;> rfl
  | read tid =>
    show (Logger.read mac l tid).2.num_readers = l.num_readers
    unfold Logger.read
    split_ifs <;> rfl

theorem step_size (mac : Bytes → Bytes) (l : Logger) (op : Op) :
    (step mac l op).size = l.size := by
  cases op with
  | write data =>
    show (Logger.write mac l data).2.size = l.size
    unfold Logger.write
    split_ifs <;> rfl
  | read tid =>
    show (Logger.read mac l tid).2.size = l.size
    unfold Logger.read
    split_ifs <;> rfl

theorem run_cons (mac : Bytes → Bytes) (l : Logger) (op : Op) (ops : List Op) :
    run mac l (op :: ops) = run mac (step mac l op) ops := rfl

theorem run_num_readers (mac : Bytes → Bytes) :
    ∀ (ops : List Op) (l : Logger), (run mac l ops).num_readers = l.num_readers := by
  intro ops
  induction ops with
  | nil => intro l; rfl
  | cons op rest ih =>
    intro l
    rw [run_cons, ih, step_num_readers]

theorem run_size (mac : Bytes → Bytes) :
    ∀ (ops : List Op) (l : Logger), (run mac l ops).size = l.size := by
  intro ops
  induction ops with
  | nil => intro l; rfl
  | cons op rest ih =>
    intro l
    rw [run_cons, ih, step_size]

/-! ### The reachable-state invariant -/

/-- Invariant satisfied by every state reachable from `Logger.new`:
counter bound, tag authenticity, capacity bound, registry bound and
distinctness of registry keys. -/
structure GoodState (mac : Bytes → Bytes) (l : Logger) : Prop where
  msg_count : ∀ m ∈ l.messages, m.readers < max 1 l.num_readers
  msg_hash : ∀ m ∈ l.messages, m.hash = mac m.bytes
  len_le : l.messages.length ≤ l.size
  readers_le : l.readers.length ≤ l.num_readers + 1
  keys_nodup : (l.readers.map Prod.fst).Nodup

theorem good_new (mac : Bytes → Bytes) (q c : Nat) :
    GoodState mac (Logger.new q c) := by
  refine ⟨?_, ?_, ?_, ?_, ?_⟩ <;> simp [Logger.new]

theorem good_step (mac : Bytes → Bytes) (l : Logger) (op : Op)
    (h : GoodState mac l) : GoodState mac (step mac l op) := by
  cases op with
  | write data =>
    show GoodState mac (Logger.write mac l data).2
    by_cases hf : l.size ≤ l.messages.length
    · rw [write_full mac l data hf]
      exact h
    · rw [write_ok mac l data hf]
      refine ⟨?_, ?_, ?_, h.readers_le, h.keys_nodup⟩
      · intro m hm
        rcases List.mem_append.mp hm with hm | hm
        · exact h.msg_count m hm
        · simp only [List.mem_singleton] at hm
          subst hm
          exact Nat.lt_of_lt_of_le Nat.zero_lt_one (le_max_left 1 l.num_readers)
      · intro m hm
        rcases List.mem_append.mp hm with hm | hm
        · exact h.msg_hash m hm
        · simp only [List.mem_singleton] at hm
          subst hm
          rfl
      · simp only [List.length_append, List.length_singleton]
        omega
  | read tid =>
    show GoodState mac (Logger.read mac l tid).2
    rcases read_cases mac l tid with ⟨_, e⟩ | ⟨_, _, e⟩ | ⟨h1, h2, h3, e⟩ | ⟨h1, h2, h3, e⟩ <;>
      rw [e]
    · exact h
    · exact h
    · refine ⟨?_, ?_, ?_, ?_, ?_⟩
      · intro m hm
        simp only [evictState] at hm ⊢
        rw [set_eraseIdx_self] at hm
        exact h.msg_count m (mem_eraseIdx _ _ m hm)
      · intro m hm
        simp only [evictState] at hm
        rw [set_eraseIdx_self] at hm
        exact h.msg_hash m (mem_eraseIdx _ _ m hm)
      · simp only [evictState]
        exact Nat.le_trans (length_eraseIdx_le _ _)
          (Nat.le_trans (by rw [List.length_set]) h.len_le)
      · simp only [evictState]
        exact Nat.le_trans (length_mapInsert_le _ _ _) (by omega)
      · simp only [evictState]
        exact nodup_keys_mapInsert _ _ _ h.keys_nodup
    · refine ⟨?_, ?_, ?_, ?_, ?_⟩
      · intro m hm
        simp only [advanceState] at hm ⊢
        rcases mem_set_cases _ _ _ m hm with hm' | hm'
        · exact h.msg_count m hm'
        · subst hm'
          simp only [incMsg]
          have := Nat.lt_of_not_le h3
          omega
      · intro m hm
        simp only [advanceState] at hm
        rcases mem_set_cases _ _ _ m hm with hm' | hm'
        · exact h.msg_hash m hm'
        · subst hm'
          simp only [incMsg]
          exact h.msg_hash _ (getD_mem _ _ (cursor_lt_of_not_atEnd l tid h2))
      · simp only [advanceState, List.length_set]
        exact h.len_le
      · simp only [advanceState]
        exact Nat.le_trans (length_mapInsert_le _ _ _) (by omega)
      · simp only [advanceState]
        exact nodup_keys_mapInsert _ _ _ h.keys_nodup

theorem good_run (mac : Bytes → Bytes) :
    ∀ (ops : List Op) (l : Logger), GoodState mac l → GoodState mac (run mac l ops) := by
  intro ops
  induction ops with
  | nil => intro l h; exact h
  | cons op rest ih =>
    intro l h
    rw [run_cons]
    exact ih _ (good_step mac l op h)

theorem good_reach (mac : Bytes → Bytes) (q c : Nat) (ops : List Op) :
    GoodState mac (reach mac q c ops) :=
  good_run mac ops (Logger.new q c) (good_new mac q c)

/-! ### FIFO order: the buffer payloads are a subsequence of the write payloads -/

theorem step_write_messages_cases (mac : Bytes → Bytes) (l : Logger) (data : Bytes) :
    (Logger.write mac l data).2.messages = l.messages ∨
      (Logger.write mac l data).2.messages =
        l.messages ++ [{ bytes := data, hash := mac data, readers := 0 }] := by
  by_cases hf : l.size ≤ l.messages.length
  · rw [write_full mac l data hf]
    exact Or.inl rfl
  · rw [write_ok mac l data hf]
    exact Or.inr rfl

theorem step_read_bytes_cases (mac : Bytes → Bytes) (l : Logger) (tid : Nat) :
    (Logger.read mac l tid).2.messages.map Message.bytes = l.messages.map Message.bytes ∨
      (Logger.read mac l tid).2.messages.map Message.bytes =
        (l.messages.map Message.bytes).eraseIdx (cursorOf l tid) := by
  rcases read_cases mac l tid with ⟨_, e⟩ | ⟨_, _, e⟩ | ⟨h1, h2, h3, e⟩ | ⟨h1, h2, h3, e⟩ <;>
    rw [e]
  · exact Or.inl rfl
  · exact Or.inl rfl
  · refine Or.inr ?_
    simp only [evictState]
    rw [set_eraseIdx_self, map_eraseIdx]
  · refine Or.inl ?_
    simp only [advanceState]
    exact map_bytes_set_same _ _ _ rfl

theorem run_bytes_sublist (mac : Bytes → Bytes) :
    ∀ (ops : List Op) (l : Logger),
      ((run mac l ops).messages.map Message.bytes).Sublist
        (l.messages.map Message.bytes ++ opsWrites ops) := by
  intro ops
  induction ops with
  | nil =>
    intro l
    simp only [run, List.foldl_nil, opsWrites, List.append_nil]
    exact List.Sublist.refl _
  | cons op rest ih =>
    intro l
    rw [run_cons]
    refine (ih (step mac l op)).trans ?_
    cases op with
    | write data =>
      show ((Logger.write mac l data).2.messages.map Message.bytes ++ opsWrites rest).Sublist
        (l.messages.map Message.bytes ++ opsWrites (Op.write data :: rest))
      rcases step_write_messages_cases mac l data with e | e <;> rw [e]
      · simp only [opsWrites]
        exact List.Sublist.append_left ((List.Sublist.refl (opsWrites rest)).cons data) _
      · simp only [opsWrites, List.map_append, List.map_singleton, List.append_assoc,
          List.singleton_append]
        exact List.Sublist.refl _
    | read tid =>
      show ((Logger.read mac l tid).2.messages.map Message.bytes ++ opsWrites rest).Sublist
        (l.messages.map Message.bytes ++ opsWrites (Op.read tid :: rest))
      simp only [opsWrites]
      rcases step_read_bytes_cases mac l tid with e | e
      · rw [e]
      · rw [e]
        exact (eraseIdx_sublist _ _).append (List.Sublist.refl _)

theorem reach_bytes_sublist (mac : Bytes → Bytes) (q c : Nat) (ops : List Op) :
    ((reach mac q c ops).messages.map Message.bytes).Sublist (opsWrites ops) := by
  have h := run_bytes_sublist mac ops (Logger.new q c)
  simpa [Logger.new, reach] using h

/-! ### Cursor monotonicity -/

theorem step_cursor_mono (mac : Bytes → Bytes) (l : Logger) (op : Op) (tid v : Nat)
    (h : mapGet l.readers tid = some v) :
    ∃ v', mapGet (step mac l op).readers tid = some v' ∧ v ≤ v' := by
  cases op with
  | write data =>
    have e : (Logger.write mac l data).2.readers = l.readers := by
      unfold Logger.write
      split_ifs <;> rfl
    exact ⟨v, by rw [show (step mac l (Op.write data)).readers = l.readers from e, h], le_refl v⟩
  | read tid' =>
    show ∃ v', mapGet (Logger.read mac l tid').2.readers tid = some v' ∧ v ≤ v'
    rcases read_cases mac l tid' with ⟨_, e⟩ | ⟨_, _, e⟩ | ⟨h1, h2, h3, e⟩ | ⟨h1, h2, h3, e⟩ <;>
      rw [e]
    · exact ⟨v, h, le_refl v⟩
    · exact ⟨v, h, le_refl v⟩
    · simp only [evictState]
      by_cases ht : tid' = tid
      · subst ht
        refine ⟨cursorOf l tid', ?_, ?_⟩
        · rw [mapGet_mapInsert_self]
        · unfold cursorOf
          rw [h]
          exact le_refl v
      · rw [mapGet_mapInsert_ne _ _ _ _ (fun e' => ht e'.symm)]
        exact ⟨v, h, le_refl v⟩
    · simp only [advanceState]
      by_cases ht : tid' = tid
      · subst ht
        refine ⟨cursorOf l tid' + 1, ?_, ?_⟩
        · rw [mapGet_mapInsert_self]
        · unfold cursorOf
          rw [h]
          exact Nat.le_succ v
      · rw [mapGet_mapInsert_ne _ _ _ _ (fun e' => ht e'.symm)]
        exact ⟨v, h, le_refl v⟩

theorem run_cursor_mono (mac : Bytes → Bytes) :
    ∀ (ops : List Op) (l : Logger) (tid v : Nat),
      mapGet l.readers tid = some v →
      ∃ v', mapGet (run mac l ops).readers tid = some v' ∧ v ≤ v' := by
  intro ops
  induction ops with
  | nil => intro l tid v h; exact ⟨v, h, le_refl v⟩
  | cons op rest ih =>
    intro l tid v h
    obtain ⟨v1, h1, hle1⟩ := step_cursor_mono mac l op tid v h
    obtain ⟨v2, h2, hle2⟩ := ih (step mac l op) tid v1 h1
    exact ⟨v2, by rw [run_cons]; exact h2, Nat.le_trans hle1 hle2⟩

/-! ### Once the registry is oversubscribed it is frozen and all reads fail -/

theorem step_write_readers (mac : Bytes → Bytes) (l : Logger) (data : Bytes) :
    (Logger.write mac l data).2.readers = l.readers := by
  unfold Logger.write
  split_ifs <;> rfl

theorem run_readers_frozen (mac : Bytes → Bytes) :
    ∀ (ops : List Op) (l : Logger),
      l.num_readers < l.readers.length →
      (run mac l ops).readers = l.readers ∧
        (run mac l ops).num_readers = l.num_readers := by
  intro ops
  induction ops with
  | nil => intro l _; exact ⟨rfl, rfl⟩
  | cons op rest ih =>
    intro l h
    rw [run_cons]
    cases op with
    | write data =>
      have hr : (step mac l (Op.write data)).readers = l.readers :=
        step_write_readers mac l data
      have hn : (step mac l (Op.write data)).num_readers = l.num_readers :=
        step_num_readers mac l (Op.write data)
      have h' : (step mac l (Op.write data)).num_readers <
          (step mac l (Op.write data)).readers.length := by
        rw [hr, hn]; exact h
      obtain ⟨e1, e2⟩ := ih _ h'
      exact ⟨by rw [e1, hr], by rw [e2, hn]⟩
    | read tid =>
      have hs : step mac l (Op.read tid) = l := by
        show (Logger.read mac l tid).2 = l
        rw [read_rejected mac l tid h]
      rw [hs]
      exact ih l h

theorem length_eraseIdx_lt {α : Type} :
    ∀ (ms : List α) (i : Nat), i < ms.length → (ms.eraseIdx i).length < ms.length := by
  intro ms
  induction ms with
  | nil => intro i h; simp at h
  | cons x t ih =>
    intro i h
    cases i with
    | zero => simp [List.eraseIdx]
    | succ j =>
      simp only [List.eraseIdx, List.length_cons]
      exact Nat.succ_lt_succ (ih j (by simpa using h))

theorem reach_num_readers (mac : Bytes → Bytes) (q c : Nat) (ops : List Op) :
    (reach mac q c ops).num_readers = q := by
  rw [reach, run_num_readers]
  rfl

theorem reach_size (mac : Bytes → Bytes) (q c : Nat) (ops : List Op) :
    (reach mac q c ops).size = c := by
  rw [reach, run_size]
  rfl

/-! ### Claim theorems -/

/-- C2: integrity round-trip.  If a read against any reachable state returns
`Ok(Some r)` (the message is read before eviction, no tampering in between),
then `r.is_valid = true` and the returned payload bytes equal the payload of
the write that created the message (it is one of the written payloads).  The
collaborator contract holds by construction: `mac` is a deterministic
function and verification is comparison with `mac` of the bytes. -/
theorem c2_integrity_roundtrip (mac : Bytes → Bytes) (q c : Nat) (ops : List Op)
    (tid : Nat) (r : Response) (l' : Logger)
    (h : Logger.read mac (reach mac q c ops) tid = (Except.ok (some r), l')) :
    r.is_valid = true ∧ r.message ∈ opsWrites ops := by
  obtain ⟨h1, h2, hr, _⟩ := read_some_guards mac (reach mac q c ops) tid r l' h
  have hmem : msgAt (reach mac q c ops) (cursorOf (reach mac q c ops) tid) ∈
      (reach mac q c ops).messages :=
    getD_mem _ _ (cursor_lt_of_not_atEnd _ _ h2)
  have hhash := (good_reach mac q c ops).msg_hash _ hmem
  subst hr
  constructor
  · simp [readResponse, hhash]
  · show (msgAt (reach mac q c ops) (cursorOf (reach mac q c ops) tid)).bytes ∈ opsWrites ops
    exact (reach_bytes_sublist mac q c ops).subset
      (List.mem_map_of_mem Message.bytes hmem)

/-- C2 witness: a concrete write of `[1,2]` followed by a read returns a
valid response carrying `[1,2]`. -/
theorem c2_integrity_roundtrip_witness :
    (Response.mk [1, 2] [7, 1, 2] true).is_valid = true ∧
      (Response.mk [1, 2] [7, 1, 2] true).message ∈ opsWrites [Op.write [1, 2]] :=
  c2_integrity_roundtrip mac0 3 10 [Op.write [1, 2]] 0
    (Response.mk [1, 2] [7, 1, 2] true)
    (Logger.mk 3 [(0, 1)] [Message.mk [1, 2] [7, 1, 2] 1] 10) rfl

/-- C3: write contract on reachable states.  `write` fails with error code 1
(BufferFull) iff the buffer length equals the capacity; on failure nothing is
mutated; otherwise it succeeds and the entire state change is the append of
the single message `{payload, mac payload, 0}` at the tail. -/
theorem c3_write_contract (mac : Bytes → Bytes) (q c : Nat) (ops : List Op)
    (data : Bytes) :
    ((Logger.write mac (reach mac q c ops) data).1 = Except.error 1 ↔
      (reach mac q c ops).messages.length = c) ∧
    ((Logger.write mac (reach mac q c ops) data).1 = Except.error 1 →
      (Logger.write mac (reach mac q c ops) data).2 = reach mac q c ops) ∧
    ((reach mac q c ops).messages.length ≠ c →
      Logger.write mac (reach mac q c ops) data =
        (Except.ok (), { reach mac q c ops with
          messages := (reach mac q c ops).messages ++
            [{ bytes := data, hash := mac data, readers := 0 }] })) := by
  have hle := (good_reach mac q c ops).len_le
  have hsz := reach_size mac q c ops
  by_cases hf : (reach mac q c ops).size ≤ (reach mac q c ops).messages.length
  · have heq : (reach mac q c ops).messages.length = c := by omega
    rw [write_full mac _ data hf]
    exact ⟨by simp [heq], fun _ => rfl, fun hne => absurd heq hne⟩
  · have hne : (reach mac q c ops).messages.length ≠ c := by omega
    rw [write_ok mac _ data hf]
    exact ⟨by simp [hne], by simp, fun _ => rfl⟩

/-- C3 witness: on an empty fresh logger of capacity 2 a write succeeds and
appends exactly the new message. -/
theorem c3_write_contract_witness :
    Logger.write mac0 (reach mac0 1 2 []) [3] =
      (Except.ok (), { reach mac0 1 2 [] with
        messages := (reach mac0 1 2 []).messages ++
          [{ bytes := [3], hash := mac0 [3], readers := 0 }] }) :=
  (c3_write_contract mac0 1 2 [] [3]).2.2 (by decide)

/-- C5: cursor update rule of a consuming read.  When `read` returns
`Ok(Some _)` at cursor index `i`: if the post-increment count of the message
at `i` is at least the quorum, the message is removed at `i` (later messages
shift toward the head) and the cursor is written back unchanged as `i`;
otherwise no message is removed (the buffer is only updated in place at `i`,
same length) and the cursor is written back as `i + 1`; in both cases the
caller's identity is recorded in the registry. -/
theorem c5_cursor_update (mac : Bytes → Bytes) (l : Logger) (tid : Nat)
    (r : Response) (l' : Logger)
    (h : Logger.read mac l tid = (Except.ok (some r), l')) :
    (l.num_readers ≤ (msgAt l (cursorOf l tid)).readers + 1 →
      l'.messages = l.messages.eraseIdx (cursorOf l tid) ∧
      mapGet l'.readers tid = some (cursorOf l tid)) ∧
    ((msgAt l (cursorOf l tid)).readers + 1 < l.num_readers →
      l'.messages = l.messages.set (cursorOf l tid) (incMsg l tid) ∧
      l'.messages.length = l.messages.length ∧
      mapGet l'.readers tid = some (cursorOf l tid + 1)) := by
  obtain ⟨h1, h2, hr, hcase⟩ := read_some_guards mac l tid r l' h
  rcases hcase with ⟨h3, rfl⟩ | ⟨h3, rfl⟩
  · constructor
    · intro _
      constructor
      · show ((l.messages.set (cursorOf l tid) (incMsg l tid)).eraseIdx
          (cursorOf l tid)) = l.messages.eraseIdx (cursorOf l tid)
        rw [set_eraseIdx_self]
      · show mapGet (mapInsert l.readers tid (cursorOf l tid)) tid =
          some (cursorOf l tid)
        rw [mapGet_mapInsert_self]
    · intro hlt
      exact absurd h3 (Nat.not_le.mpr hlt)
  · constructor
    · intro hge
      exact absurd hge h3
    · intro _
      refine ⟨rfl, ?_, ?_⟩
      · show (l.messages.set (cursorOf l tid) (incMsg l tid)).length =
          l.messages.length
        rw [List.length_set]
      · show mapGet (mapInsert l.readers tid (cursorOf l tid + 1)) tid =
          some (cursorOf l tid + 1)
        rw [mapGet_mapInsert_self]

/-- C5 witness: with quorum 1, the single reader's consuming read evicts the
message at index 0 and records cursor 0 for the caller. -/
theorem c5_cursor_update_witness :
    ([] : List Message) = [Message.mk [2] [7, 2] 0].eraseIdx 0 ∧
      mapGet [(0, 0)] 0 = some 0 :=
  (c5_cursor_update mac0 (Logger.mk 1 [] [Message.mk [2] [7, 2] 0] 5) 0
    (Response.mk [2] [7, 2] true) (Logger.mk 1 [(0, 0)] [] 5)
    rfl).1 (by decide)

/-- C6: end-of-buffer semantics.  If the registry check does not reject
(registry size is at most the quorum) and either the buffer is empty or the
caller's cursor (defaulting to 0 when absent) is nonzero and exceeds
`len(buffer) - 1`, then `read` returns `Ok(None)` and the state — buffer,
every counter, and the registry including the caller's entry — is unchanged. -/
theorem c6_end_of_buffer (mac : Bytes → Bytes) (l : Logger) (tid : Nat)
    (h1 : l.readers.length ≤ l.num_readers)
    (h2 : l.messages.length = 0 ∨
      (cursorOf l tid ≠ 0 ∧ l.messages.length - 1 < cursorOf l tid)) :
    Logger.read mac l tid = (Except.ok none, l) := by
  refine read_none mac l tid (Nat.not_lt.mpr h1) ?_
  unfold atEnd
  rcases h2 with h2 | ⟨ha, hb⟩
  · exact Or.inl h2
  · exact Or.inr ⟨Nat.pos_of_ne_zero ha, hb⟩

/-- C6 witness: reading a fresh empty logger returns `Ok(None)` and changes
nothing. -/
theorem c6_end_of_buffer_witness :
    Logger.read mac0 (Logger.new 3 10) 0 = (Except.ok none, Logger.new 3 10) :=
  c6_end_of_buffer mac0 (Logger.new 3 10) 0 (by decide) (Or.inl (by decide))

/-- C1 counterexample: the eviction biconditional fails when the log is
constructed with `quorumSize = 0`.  After a single write, the buffer of
`new(0, 1)` holds a message whose `readCount` (0) has already reached
`quorumSize` (0), yet the message has not been removed — refuting "a message
is removed from the buffer if its readCount has reached quorumSize" for the
claim as stated over all constructions. -/
theorem c1_counterexample :
    ¬ (∀ m ∈ (reach mac0 0 1 [Op.write [5]]).messages,
        m.readers < (reach mac0 0 1 [Op.write [5]]).num_readers) := by
  decide

/-- C1 (amended with `quorumSize ≥ 1`): in every reachable state each
buffered message has `readCount < quorumSize` (hence
`0 ≤ readCount ≤ quorumSize`); `write` never removes a message (it appends
or leaves the buffer unchanged); non-consuming reads mutate nothing; and a
consuming read removes the message at the cursor index in that same call iff
its post-increment `readCount` equals `quorumSize`. -/
theorem c1_quorum_eviction (mac : Bytes → Bytes) (q c : Nat) (ops : List Op)
    (hq : 1 ≤ q) :
    (∀ m ∈ (reach mac q c ops).messages, m.readers < q) ∧
    (∀ data : Bytes,
      (Logger.write mac (reach mac q c ops) data).2.messages =
        (reach mac q c ops).messages ∨
      (Logger.write mac (reach mac q c ops) data).2.messages =
        (reach mac q c ops).messages ++
          [{ bytes := data, hash := mac data, readers := 0 }]) ∧
    (∀ tid : Nat,
      ((Logger.read mac (reach mac q c ops) tid).1 = Except.error 2 ∨
        (Logger.read mac (reach mac q c ops) tid).1 = Except.ok none) →
      (Logger.read mac (reach mac q c ops) tid).2 = reach mac q c ops) ∧
    (∀ (tid : Nat) (r : Response) (l' : Logger),
      Logger.read mac (reach mac q c ops) tid = (Except.ok (some r), l') →
      (l'.messages =
          (reach mac q c ops).messages.eraseIdx (cursorOf (reach mac q c ops) tid) ↔
        (msgAt (reach mac q c ops) (cursorOf (reach mac q c ops) tid)).readers + 1
          = q)) := by
  have hg := good_reach mac q c ops
  have hnq := reach_num_readers mac q c ops
  have hmax : max 1 (reach mac q c ops).num_readers = q := by
    rw [hnq]
    exact max_eq_right hq
  have hcount : ∀ m ∈ (reach mac q c ops).messages, m.readers < q := fun m hm => by
    have := hg.msg_count m hm
    rw [hmax] at this
    exact this
  refine ⟨hcount, fun data => step_write_messages_cases mac _ data, ?_, ?_⟩
  · intro tid hyp
    rcases read_cases mac (reach mac q c ops) tid with
      ⟨_, e⟩ | ⟨_, _, e⟩ | ⟨h1, h2, h3, e⟩ | ⟨h1, h2, h3, e⟩
    · rw [e]
    · rw [e]
    · rw [e] at hyp
      simp at hyp
    · rw [e] at hyp
      simp at hyp
  · intro tid r l' h
    obtain ⟨h1, h2, hr, hcase⟩ := read_some_guards mac _ tid r l' h
    have hlt : cursorOf (reach mac q c ops) tid < (reach mac q c ops).messages.length :=
      cursor_lt_of_not_atEnd _ _ h2
    have hmlt : (msgAt (reach mac q c ops) (cursorOf (reach mac q c ops) tid)).readers < q :=
      hcount _ (getD_mem _ _ hlt)
    rcases hcase with ⟨h3, rfl⟩ | ⟨h3, rfl⟩
    · rw [hnq] at h3
      apply iff_of_true
      · show ((reach mac q c ops).messages.set (cursorOf (reach mac q c ops) tid)
          (incMsg (reach mac q c ops) tid)).eraseIdx (cursorOf (reach mac q c ops) tid) =
          (reach mac q c ops).messages.eraseIdx (cursorOf (reach mac q c ops) tid)
        rw [set_eraseIdx_self]
      · omega
    · rw [hnq] at h3
      apply iff_of_false
      · intro heq
        have hlen := congrArg List.length heq
        simp only [advanceState, List.length_set] at hlen
        have := length_eraseIdx_lt (reach mac q c ops).messages
          (cursorOf (reach mac q c ops) tid) hlt
        omega
      · omega

/-- C1 witness: a non-consuming read against a reachable state with
`quorumSize = 1` leaves the state unchanged. -/
theorem c1_quorum_eviction_witness :
    (Logger.read mac0 (reach mac0 1 1 []) 0).2 = reach mac0 1 1 [] :=
  (c1_quorum_eviction mac0 1 1 [] (by decide)).2.2.1 0 (Or.inr (by decide))

/-- C4 counterexample: with `quorumSize = 3`, after four distinct identities
(1, 2, 3, 4) have each called `read` on an empty log, a subsequent call by
identity 1 returns `Ok(None)`, not `TooManyReaders` — refuting the claim that
any call after a 4th distinct identity has called `read` is rejected: the
rejection depends on registration, which only happens on consuming reads. -/
theorem c4_counterexample :
    (Logger.read mac0
      (reach mac0 3 10 [Op.read 1, Op.read 2, Op.read 3, Op.read 4]) 1).1
        = Except.ok none ∧
    (Logger.read mac0
      (reach mac0 3 10 [Op.read 1, Op.read 2, Op.read 3, Op.read 4]) 1).1
        ≠ Except.error 2 := by
  decide

/-- C4 (amended): once the registry holds more distinct identities than
`quorumSize` — which with `quorumSize = 3` happens as soon as a 4th distinct
identity completes a consuming read — every subsequent `read` call, from any
identity and after any further sequence of calls, returns `TooManyReaders`
(error code 2); the registry never changes again, so the condition never
clears. -/
theorem c4_too_many_readers (mac : Bytes → Bytes) (l : Logger) (ops : List Op)
    (tid : Nat) (h : l.num_readers < l.readers.length) :
    (Logger.read mac (run mac l ops) tid).1 = Except.error 2 ∧
      (run mac l ops).readers = l.readers := by
  obtain ⟨e1, e2⟩ := run_readers_frozen mac ops l h
  have h' : (run mac l ops).num_readers < (run mac l ops).readers.length := by
    rw [e1, e2]
    exact h
  rw [read_rejected mac _ tid h']
  exact ⟨rfl, e1⟩

/-- C4 witness: with `quorumSize = 3`, after one write is drained by readers
1-3 and a second write is consumed once by reader 4, four identities are
registered; a later read by the original reader 1 (after one more call)
returns error code 2 and the registry is unchanged. -/
theorem c4_too_many_readers_witness :
    (Logger.read mac0 (run mac0
      (reach mac0 3 10
        [Op.write [1], Op.read 1, Op.read 2, Op.read 3, Op.write [2], Op.read 4])
      [Op.read 2]) 1).1 = Except.error 2 ∧
    (run mac0
      (reach mac0 3 10
        [Op.write [1], Op.read 1, Op.read 2, Op.read 3, Op.write [2], Op.read 4])
      [Op.read 2]).readers =
      (reach mac0 3 10
        [Op.write [1], Op.read 1, Op.read 2, Op.read 3, Op.write [2], Op.read 4]).readers :=
  c4_too_many_readers mac0
    (reach mac0 3 10
      [Op.write [1], Op.read 1, Op.read 2, Op.read 3, Op.write [2], Op.read 4])
    [Op.read 2] 1 (by decide)

/-- C7 counterexample: the registry bound claimed by the spec
(at most `quorumSize` distinct identities) is violated.  With
`quorumSize = 1`, after reader 5 drains the first message and reader 6 then
performs a consuming read, the registry holds 2 distinct identities: the
rejection check runs before the caller is registered, so one identity beyond
the quorum always slips in. -/
theorem c7_counterexample :
    ¬ ((reach mac0 1 2 [Op.write [1], Op.read 5, Op.write [2], Op.read 6]).readers.length ≤
        (reach mac0 1 2 [Op.write [1], Op.read 5, Op.write [2], Op.read 6]).num_readers) := by
  decide

/-- C7 (amended): in every reachable state the cursors registry holds at most
`quorumSize + 1` distinct reader identities (the registry keys are pairwise
distinct, so its length counts distinct identities). -/
theorem c7_registry_bound (mac : Bytes → Bytes) (q c : Nat) (ops : List Op) :
    (reach mac q c ops).readers.length ≤ q + 1 ∧
      ((reach mac q c ops).readers.map Prod.fst).Nodup := by
  have hg := good_reach mac q c ops
  refine ⟨?_, hg.keys_nodup⟩
  have h := hg.readers_le
  rw [reach_num_readers] at h
  exact h

/-- C8: FIFO order preservation.  The buffer's payload sequence in any
reachable state is a subsequence of the successful writes' payloads in call
order; each `write` either appends one message at the tail or leaves the
buffer unchanged; each `read` leaves the payload sequence unchanged or
removes the single payload at the cursor index (later messages shift toward
the head, relative order preserved) — no operation reorders the buffer. -/
theorem c8_fifo_order (mac : Bytes → Bytes) (q c : Nat) (ops : List Op) :
    ((reach mac q c ops).messages.map Message.bytes).Sublist (opsWrites ops) ∧
    (∀ (l : Logger) (data : Bytes),
      (Logger.write mac l data).2.messages = l.messages ∨
      (Logger.write mac l data).2.messages =
        l.messages ++ [{ bytes := data, hash := mac data, readers := 0 }]) ∧
    (∀ (l : Logger) (tid : Nat),
      (Logger.read mac l tid).2.messages.map Message.bytes =
          l.messages.map Message.bytes ∨
      (Logger.read mac l tid).2.messages.map Message.bytes =
          (l.messages.map Message.bytes).eraseIdx (cursorOf l tid)) :=
  ⟨reach_bytes_sublist mac q c ops,
   fun l data => step_write_messages_cases mac l data,
   fun l tid => step_read_bytes_cases mac l tid⟩

/-- C9: the registry bound the code actually maintains.  Every reachable
state has at most `quorumSize + 1` registered identities, because `read`
rejects (error code 2, no mutation) exactly when the registry size already
strictly exceeds `quorumSize`, and registration happens only on a consuming
read: rejected reads and `Ok(None)` reads leave the registry unchanged. -/
theorem c9_registry_bound_actual (mac : Bytes → Bytes) (q c : Nat) (ops : List Op) :
    (reach mac q c ops).readers.length ≤ (reach mac q c ops).num_readers + 1 ∧
    (∀ (l : Logger) (tid : Nat), l.num_readers < l.readers.length →
      Logger.read mac l tid = (Except.error 2, l)) ∧
    (∀ (l : Logger) (tid : Nat),
      ((Logger.read mac l tid).1 = Except.error 2 ∨
        (Logger.read mac l tid).1 = Except.ok none) →
      (Logger.read mac l tid).2.readers = l.readers) := by
  refine ⟨(good_reach mac q c ops).readers_le,
    fun l tid h => read_rejected mac l tid h, ?_⟩
  intro l tid hyp
  rcases read_cases mac l tid with
    ⟨_, e⟩ | ⟨_, _, e⟩ | ⟨h1, h2, h3, e⟩ | ⟨h1, h2, h3, e⟩
  · rw [e]
  · rw [e]
  · rw [e] at hyp
    simp at hyp
  · rw [e] at hyp
    simp at hyp

/-- C9 witness: a registry of 2 identities with quorum 1 makes the next read
fail with error code 2 and mutate nothing. -/
theorem c9_registry_bound_actual_witness :
    (reach mac0 3 10 []).readers.length ≤ (reach mac0 3 10 []).num_readers + 1 ∧
    Logger.read mac0 (Logger.mk 1 [(5, 0), (6, 0)] [] 2) 5 =
      (Except.error 2, Logger.mk 1 [(5, 0), (6, 0)] [] 2) := by
  have h := c9_registry_bound_actual mac0 3 10 []
  exact ⟨h.1, h.2.1 (Logger.mk 1 [(5, 0), (6, 0)] [] 2) 5 (by decide)⟩

/-- C10: cursor monotonicity.  A reader identity's registry entry is never
deleted and its cursor value never decreases across any further sequence of
write and read calls: each read writes back the looked-up value or that value
plus one, writes never touch the registry. -/
theorem c10_cursor_monotone (mac : Bytes → Bytes) (l : Logger) (ops : List Op)
    (tid v : Nat) (h : mapGet l.readers tid = some v) :
    ∃ v', mapGet (run mac l ops).readers tid = some v' ∧ v ≤ v' :=
  run_cursor_mono mac ops l tid v h

/-- C10 witness: reader 2's cursor entry (value 1) survives a further read
and write without decreasing. -/
theorem c10_cursor_monotone_witness :
    ∃ v', mapGet (run mac0 (Logger.mk 3 [(2, 1)] [] 5)
      [Op.read 2, Op.write [8]]).readers 2 = some v' ∧ 1 ≤ v' :=
  c10_cursor_monotone mac0 (Logger.mk 3 [(2, 1)] [] 5)
    [Op.read 2, Op.write [8]] 2 1 (by decide)
